import Mathlib

/-!
Verification of the Fragment Dependency & Execution Engine of the
octos-quantum repository (`octotools/models/semantic.py`,
`semantic_types.py`, `semantic_registry.py`, `executor.py`, `memory.py`,
and the assembler's `_sort_fragments_by_dependencies`).

Modelling conventions:
* Python `dict`s are modelled as insertion-ordered association lists
  (`List (String × α)`): assignment updates a present key in place and
  appends an absent key, exactly like CPython dicts.
* Python runtime values are modelled by the inductive `PyVal`;
  `SemanticCodeFragment` is the mutually defined `Fragment`.
* `exec` of tool-authored source text is an uninterpreted oracle
  `runBlock : PyVal → Ctx → ExecOutcome` (section on the executor below):
  running a piece of code in a context either raises `TimeoutError`
  (the SIGALRM deadline fired), raises some other exception, or
  completes with a final context.
* Python `set` iteration order is unspecified; wherever the source
  iterates a set (`topological_sort`), the model takes the enumeration
  (a duplicate-free list of the set's elements) as an explicit input.
-/

/-! ### Association-list model of Python dicts -/

/-- Lookup in an insertion-ordered dict (first — hence unique — matching
key). Models `d.get(k)` / `d[k]`. -/
def dGet {α : Type} : List (String × α) → String → Option α
  | [], _ => none
  | (k', v) :: rest, k => if k' = k then some v else dGet rest k

/-- Dict assignment `d[k] = v`: update in place if the key is present,
append otherwise. -/
def dInsert {α : Type} : List (String × α) → String → α → List (String × α)
  | [], k, v => [(k, v)]
  | (k', v') :: rest, k, v =>
      if k' = k then (k', v) :: rest else (k', v') :: dInsert rest k v

/-- Membership test `k in d`. -/
def dContains {α : Type} (d : List (String × α)) (k : String) : Bool :=
  (dGet d k).isSome

/-- The keys of the dict are pairwise distinct (every dict built by this
model through `dInsert` satisfies it). -/
def NodupKeys {α : Type} (d : List (String × α)) : Prop :=
  (d.map Prod.fst).Nodup

lemma dGet_dInsert {α : Type} (d : List (String × α)) (k k' : String) (v : α) :
    dGet (dInsert d k v) k' = if k' = k then some v else dGet d k' := by
  induction d with
  | nil =>
    by_cases h : k' = k
    · subst h; simp [dInsert, dGet]
    · simp [dInsert, dGet, h, Ne.symm h]
  | cons p rest ih =>
    obtain ⟨k0, v0⟩ := p
    by_cases h0 : k0 = k
    · subst h0
      by_cases h1 : k' = k0
      · subst h1; simp [dInsert, dGet]
      · simp [dInsert, dGet, h1, Ne.symm h1]
    · by_cases h1 : k' = k0
      · subst h1
        simp [dInsert, dGet, h0, Ne.symm h0]
      · simp [dInsert, dGet, h0, h1, Ne.symm h1, ih]

lemma dContains_dInsert {α : Type} (d : List (String × α)) (k k' : String) (v : α) :
    dContains (dInsert d k v) k' = if k' = k then true else dContains d k' := by
  by_cases h : k' = k <;> simp [dContains, dGet_dInsert, h]

lemma dGet_map_keyed {α : Type} (l : List String) (g : String → α) (k : String) :
    dGet (l.map (fun t => (t, g t))) k = if k ∈ l then some (g k) else none := by
  induction l with
  | nil => simp [dGet]
  | cons x xs ih =>
    by_cases h : x = k
    · subst h; simp [dGet]
    · simp [dGet, h, ih, Ne.symm h]

lemma keys_dInsert {α : Type} (d : List (String × α)) (k : String) (v : α) :
    (dInsert d k v).map Prod.fst =
      if dContains d k then d.map Prod.fst else d.map Prod.fst ++ [k] := by
  induction d with
  | nil => simp [dInsert, dContains, dGet]
  | cons p rest ih =>
    obtain ⟨k0, v0⟩ := p
    by_cases h0 : k0 = k
    · subst h0; simp [dInsert, dContains, dGet]
    · simp only [dInsert, if_neg h0, List.map_cons, dContains, dGet,
        if_neg h0, ih, dContains]
      by_cases hc : (dGet rest k).isSome <;> simp [hc]

lemma mem_keys_iff_dContains {α : Type} (d : List (String × α)) (k : String) :
    k ∈ d.map Prod.fst ↔ dContains d k = true := by
  induction d with
  | nil => simp [dContains, dGet]
  | cons p rest ih =>
    obtain ⟨k0, v0⟩ := p
    by_cases h0 : k0 = k
    · subst h0; simp [dContains, dGet]
    · simp [dContains, dGet, h0, Ne.symm h0, ih, dContains]

lemma nodupKeys_dInsert {α : Type} (d : List (String × α)) (k : String) (v : α)
    (h : NodupKeys d) : NodupKeys (dInsert d k v) := by
  unfold NodupKeys
  rw [keys_dInsert]
  by_cases hc : dContains d k
  · simpa [hc] using h
  · simp only [hc, if_false, Bool.false_eq_true]
    rw [List.nodup_append]
    refine ⟨h, List.nodup_singleton k, ?_⟩
    intro a ha hb
    simp only [List.mem_singleton] at hb
    subst hb
    exact absurd ((mem_keys_iff_dContains d a).mp ha) (by simp [hc])

/-- Merge `src` into `d` by repeated assignment: models `{**d, **src}`
(together with starting from the entries of `d`). -/
def dMergeInto {α : Type} (d src : List (String × α)) : List (String × α) :=
  src.foldl (fun acc kv => dInsert acc kv.1 kv.2) d

lemma dGet_dMergeInto {α : Type} (d src : List (String × α)) (k : String)
    (hsrc : NodupKeys src) :
    dGet (dMergeInto d src) k = (dGet src k).orElse (fun _ => dGet d k) := by
  induction src generalizing d with
  | nil => simp [dMergeInto, dGet]
  | cons p rest ih =>
    obtain ⟨k0, v0⟩ := p
    have hrest : NodupKeys rest := by
      unfold NodupKeys at hsrc ⊢
      simpa using (List.nodup_cons.mp (by simpa using hsrc)).2
    have hk0 : k0 ∉ rest.map Prod.fst := by
      unfold NodupKeys at hsrc
      exact (List.nodup_cons.mp (by simpa using hsrc)).1
    simp only [dMergeInto, List.foldl_cons]
    rw [show (List.foldl (fun acc kv => dInsert acc kv.1 kv.2) (dInsert d k0 v0) rest) =
        dMergeInto (dInsert d k0 v0) rest from rfl, ih _ hrest]
    by_cases h : k = k0
    · subst h
      have : dGet rest k = none := by
        cases hg : dGet rest k with
        | none => rfl
        | some v =>
          exfalso
          apply hk0
          have : dContains rest k = true := by simp [dContains, hg]
          exact (mem_keys_iff_dContains rest k).mpr this
      simp [dGet, this, dGet_dInsert]
    · simp [dGet, Ne.symm h, dGet_dInsert, h]

lemma nodupKeys_dMergeInto {α : Type} (d src : List (String × α))
    (h : NodupKeys d) : NodupKeys (dMergeInto d src) := by
  induction src generalizing d with
  | nil => exact h
  | cons p rest ih =>
    simp only [dMergeInto, List.foldl_cons]
    exact ih _ (nodupKeys_dInsert _ _ _ h)

/-! ### Python values and `SemanticCodeFragment` (octotools/models/semantic.py) -/

mutual

/-- Python runtime values, as far as the engine inspects them: strings,
numbers, booleans, `None`, `SemanticCodeFragment` objects, lists, dicts
(string-keyed, as the engine only ever uses string keys), and tool
instances (identified by their name). -/
inductive PyVal : Type where
  | str : String → PyVal
  | int : Int → PyVal
  | bool : Bool → PyVal
  | pynone : PyVal
  | frag : Fragment → PyVal
  | list : List PyVal → PyVal
  | dict : List (String × PyVal) → PyVal
  | tool : String → PyVal

/-- The `SemanticCodeFragment` dataclass: code, semantic_type,
variable_name, dependencies, provides, metadata, tool_source, and the
runtime state is_executed / execution_context. -/
inductive Fragment : Type where
  | mk : (code : PyVal) → (semantic_type : String) → (variable_name : String) →
      (dependencies : List String) → (provides : List String) →
      (metadata : PyVal) → (tool_source : String) →
      (is_executed : Bool) → (execution_context : Option (List (String × PyVal))) →
      Fragment

end

def Fragment.code : Fragment → PyVal
  | .mk c _ _ _ _ _ _ _ _ => c

def Fragment.semantic_type : Fragment → String
  | .mk _ s _ _ _ _ _ _ _ => s

def Fragment.variable_name : Fragment → String
  | .mk _ _ v _ _ _ _ _ _ => v

def Fragment.dependencies : Fragment → List String
  | .mk _ _ _ d _ _ _ _ _ => d

def Fragment.provides : Fragment → List String
  | .mk _ _ _ _ p _ _ _ _ => p

def Fragment.metadata : Fragment → PyVal
  | .mk _ _ _ _ _ m _ _ _ => m

def Fragment.tool_source : Fragment → String
  | .mk _ _ _ _ _ _ t _ _ => t

def Fragment.is_executed : Fragment → Bool
  | .mk _ _ _ _ _ _ _ e _ => e

def Fragment.execution_context : Fragment → Option (List (String × PyVal))
  | .mk _ _ _ _ _ _ _ _ x => x

/-- Replace the runtime state of a fragment (the in-place writes
`fragment.execution_context = ...; fragment.is_executed = True` of
`_execute_fragment_for_variables`). -/
def Fragment.withExecState (f : Fragment) (e : Bool)
    (x : Option (List (String × PyVal))) : Fragment :=
  match f with
  | .mk c s v d p m t _ _ => .mk c s v d p m t e x

/-- Construction of a `SemanticCodeFragment`, including `__post_init__`:
if `variable_name` is truthy (non-empty) and not already in `provides`,
it is appended. `is_executed` starts `False`, `execution_context` `None`. -/
def mkFragment (code : PyVal) (semantic_type variable_name : String)
    (dependencies provides : List String) (metadata : PyVal)
    (tool_source : String) : Fragment :=
  let provides' :=
    if variable_name ≠ "" ∧ variable_name ∉ provides then
      provides ++ [variable_name]
    else provides
  .mk code semantic_type variable_name dependencies provides' metadata
    tool_source false none

/-! ### Semantic types and the dependency graph (octotools/models/semantic_types.py) -/

/-- The keys of `SemanticTypes.DEPENDENCIES`, in the dict's insertion
order. -/
def depKeys : List String :=
  ["spec", "hamiltonian", "ansatz", "optimizer", "estimator",
   "vqe_execution", "complete_solution"]

/-- Lookup in the `SemanticTypes.DEPENDENCIES` dict with default `[]`
(`dependencies.get(stype, [])`). -/
def depsOf (t : String) : List String :=
  if t = "spec" then []
  else if t = "hamiltonian" then ["spec"]
  else if t = "ansatz" then ["spec"]
  else if t = "optimizer" then ["spec"]
  else if t = "estimator" then ["spec"]
  else if t = "vqe_execution" then
    ["hamiltonian", "ansatz", "optimizer", "estimator"]
  else if t = "complete_solution" then ["vqe_execution"]
  else []

/-- The values of `SemanticTypes.TOOL_SEMANTIC_MAPPING` are either a
single type or a list of types. -/
inductive TSMVal : Type where
  | s : String → TSMVal
  | l : List String → TSMVal

/-- Lookup in `SemanticTypes.TOOL_SEMANTIC_MAPPING` with default `None`
(`tool_mapping.get(tool_name)`). -/
def toolSemanticMapping (tool_name : String) : Option TSMVal :=
  if tool_name = "Qiskit_TFIM_Spec_Tool" then some (.s "spec")
  else if tool_name = "Qiskit_TFIM_Hamiltonian_Tool" then some (.s "hamiltonian")
  else if tool_name = "Qiskit_TFIM_Ansatz_Tool" then some (.s "ansatz")
  else if tool_name = "Qiskit_TFIM_Optimizer_Tool" then
    some (.l ["optimizer", "estimator"])
  else if tool_name = "Qiskit_VQE_Tool" then some (.s "vqe_execution")
  else if tool_name = "qiskit_Code_Assembler_Tool" then
    some (.s "complete_solution")
  else none

/-- Height of a type in the (acyclic) dependency graph; used to show the
graph restricted to any set of types always has a ready element. -/
def depHeight (t : String) : Nat :=
  if t = "vqe_execution" then 2
  else if t = "complete_solution" then 3
  else if t = "hamiltonian" ∨ t = "ansatz" ∨ t = "optimizer" ∨ t = "estimator"
    then 1
  else 0

lemma depHeight_lt_of_mem_depsOf (t d : String) (h : d ∈ depsOf t) :
    depHeight d < depHeight t := by
  unfold depsOf at h
  split_ifs at h with h1 h2 h3 h4 h5 h6 h7 <;> simp at h <;>
    first
      | (subst h2; rcases h with rfl; decide)
      | (subst h3; rcases h with rfl; decide)
      | (subst h4; rcases h with rfl; decide)
      | (subst h5; rcases h with rfl; decide)
      | (subst h7; rcases h with rfl; decide)
      | (subst h6; rcases h with rfl | rfl | rfl | rfl <;> decide)

lemma mem_depKeys_of_mem_depsOf (t d : String) (h : d ∈ depsOf t) :
    d ∈ depKeys := by
  unfold depsOf at h
  split_ifs at h <;> simp at h <;>
    first
      | (rcases h with rfl; decide)
      | (rcases h with rfl | rfl | rfl | rfl <;> decide)

/-! ### `topological_sort` (octotools/models/semantic_types.py, lines 37-57)

The source iterates `remaining = set(types_to_sort)`; Python set
iteration order is unspecified, so the model receives the enumeration of
that set — a duplicate-free list of the distinct input types — and keeps
relative order when filtering, one admissible refinement of CPython's
behaviour. -/

/-- Python `min` over a nonempty collection of strings (lexicographic
smallest). `min([])` raises, the `[]` case is unreachable at the call
site. -/
def minOf : List String → String
  | [] => ""
  | x :: xs => xs.foldl min x

lemma foldl_min_mem (xs : List String) (a : String) :
    xs.foldl min a = a ∨ xs.foldl min a ∈ xs := by
  induction xs generalizing a with
  | nil => simp
  | cons x xs ih =>
    simp only [List.foldl_cons]
    rcases ih (min a x) with h | h
    · rw [h]
      rcases min_choice a x with hm | hm
      · left; exact hm
      · right; rw [hm]; exact List.mem_cons_self x xs
    · right; exact List.mem_cons_of_mem x h

lemma foldl_min_le (xs : List String) (a : String) :
    xs.foldl min a ≤ a ∧ ∀ t ∈ xs, xs.foldl min a ≤ t := by
  induction xs generalizing a with
  | nil => simp
  | cons x xs ih =>
    obtain ⟨h1, h2⟩ := ih (min a x)
    simp only [List.foldl_cons]
    refine ⟨le_trans h1 (min_le_left a x), ?_⟩
    intro t ht
    rcases List.mem_cons.mp ht with rfl | ht
    · exact le_trans h1 (min_le_right a t)
    · exact h2 t ht

lemma minOf_mem (l : List String) (h : l ≠ []) : minOf l ∈ l := by
  cases l with
  | nil => exact absurd rfl h
  | cons x xs =>
    rcases foldl_min_mem xs x with h1 | h1
    · rw [minOf, h1]; exact List.mem_cons_self x xs
    · exact List.mem_cons_of_mem x h1

lemma minOf_le (l : List String) (t : String) (ht : t ∈ l) : minOf l ≤ t := by
  cases l with
  | nil => simp at ht
  | cons x xs =>
    rcases List.mem_cons.mp ht with rfl | h1
    · exact (foldl_min_le xs t).1
    · exact (foldl_min_le xs x).2 t h1

/-- The list comprehension of the loop body: the remaining types all of
whose dependencies are outside `remaining`
(`[t for t in remaining if all(dep not in remaining for dep in deps)]`). -/
def readyList (rem : List String) : List String :=
  rem.filter (fun t => (depsOf t).all (fun d => !rem.contains d))

lemma exists_depHeight_min (rem : List String) (h : rem ≠ []) :
    ∃ t ∈ rem, ∀ u ∈ rem, depHeight t ≤ depHeight u := by
  induction rem with
  | nil => exact absurd rfl h
  | cons x xs ih =>
    cases hxs : xs with
    | nil =>
      exact ⟨x, List.mem_cons_self x [], by
        intro u hu
        rcases List.mem_cons.mp hu with rfl | hu
        · exact le_refl _
        · simp at hu⟩
    | cons y ys =>
      obtain ⟨t, ht, hmin⟩ := ih (by simp [hxs])
      rw [← hxs] at *
      by_cases hc : depHeight x ≤ depHeight t
      · refine ⟨x, List.mem_cons_self x xs, ?_⟩
        intro u hu
        rcases List.mem_cons.mp hu with rfl | hu
        · exact le_refl _
        · exact le_trans hc (hmin u hu)
      · refine ⟨t, List.mem_cons_of_mem x ht, ?_⟩
        intro u hu
        rcases List.mem_cons.mp hu with rfl | hu
        · exact le_of_not_le hc
        · exact hmin u hu

lemma readyList_ne_nil (rem : List String) (h : rem ≠ []) :
    readyList rem ≠ [] := by
  obtain ⟨t, ht, hmin⟩ := exists_depHeight_min rem h
  have hready : t ∈ readyList rem := by
    rw [readyList, List.mem_filter]
    refine ⟨ht, ?_⟩
    rw [List.all_eq_true]
    intro d hd
    by_contra hc
    simp only [Bool.not_eq_true, Bool.not_eq_false'] at hc
    have hdm : d ∈ rem := by simpa using hc
    exact absurd (hmin d hdm)
      (not_le.mpr (depHeight_lt_of_mem_depsOf t d hd))
  intro hnil
  rw [hnil] at hready
  simp at hready

lemma length_filter_lt_of_mem_not {α : Type} {l : List α} {p : α → Bool}
    {x : α} (hx : x ∈ l) (hpx : p x = false) :
    (l.filter p).length < l.length :=
  List.length_filter_lt_length_iff_exists.mpr ⟨x, hx, by simp [hpx]⟩

/-- The `while remaining:` loop of `topological_sort`: collect the ready
types (falling back to the single lexicographically smallest remaining
type when none is ready), append them to the result and remove them from
`remaining`. -/
def topoLoop (rem : List String) : List String :=
  if rem = [] then []
  else if readyList rem = [] then
    [minOf rem] ++ topoLoop (rem.filter (fun t => !([minOf rem].contains t)))
  else
    readyList rem ++
      topoLoop (rem.filter (fun t => !((readyList rem).contains t)))
termination_by rem.length
decreasing_by
  · rename_i h1 _h2
    refine length_filter_lt_of_mem_not (minOf_mem rem h1) ?_
    simp
  · rename_i h1 h2
    have hex : ∃ x, x ∈ readyList rem := by
      cases hh : readyList rem with
      | nil => exact absurd hh h2
      | cons a as => exact ⟨a, List.mem_cons_self a as⟩
    obtain ⟨x, hx⟩ := hex
    refine length_filter_lt_of_mem_not
      ((List.mem_filter.mp hx).1 : x ∈ rem) ?_
    simp only [Bool.not_eq_false']
    simpa using hx

/-- `topological_sort(types_to_sort)`; the argument is the enumeration of
`set(types_to_sort)`. -/
def topological_sort (enum : List String) : List String :=
  topoLoop enum

lemma topoLoop_eq_of_ne_nil (rem : List String) (h : rem ≠ []) :
    topoLoop rem = readyList rem ++
      topoLoop (rem.filter (fun t => !((readyList rem).contains t))) := by
  rw [topoLoop]
  rw [if_neg h, if_neg (readyList_ne_nil rem h)]

lemma filter_not_ready_eq (rem : List String) :
    rem.filter (fun t => !((readyList rem).contains t)) =
    rem.filter (fun t => !((depsOf t).all (fun d => !rem.contains d))) := by
  apply List.filter_congr
  intro x hx
  have hmem : (readyList rem).contains x = true ↔ x ∈ readyList rem := by
    simp
  have : (readyList rem).contains x = (depsOf x).all (fun d => !rem.contains d) := by
    by_cases hp : (depsOf x).all (fun d => !rem.contains d) = true
    · rw [hp]
      exact hmem.mpr (List.mem_filter.mpr ⟨hx, hp⟩)
    · simp only [Bool.not_eq_true] at hp
      rw [hp]
      simp only [Bool.not_eq_true] at hmem ⊢
      rw [← Bool.not_eq_true]
      intro hc
      exact absurd (List.mem_filter.mp (hmem.mp hc)).2 (by rw [hp]; simp)
  rw [this]

lemma topoLoop_perm_aux : ∀ (n : Nat) (rem : List String), rem.length ≤ n →
    rem.Nodup → (topoLoop rem).Perm rem := by
  intro n
  induction n with
  | zero =>
    intro rem hlen hnd
    have h0 : rem = [] := List.eq_nil_of_length_eq_zero (Nat.le_zero.mp hlen)
    subst h0
    rw [topoLoop]
    simp
  | succ k ih =>
    intro rem hlen hnd
    by_cases h : rem = []
    · subst h; rw [topoLoop]; simp
    · rw [topoLoop_eq_of_ne_nil rem h, filter_not_ready_eq]
      have hready : readyList rem =
          rem.filter (fun t => (depsOf t).all (fun d => !rem.contains d)) := rfl
      obtain ⟨x, hx⟩ : ∃ x, x ∈ readyList rem := by
        cases hh : readyList rem with
        | nil => exact absurd hh (readyList_ne_nil rem h)
        | cons a as => exact ⟨a, List.mem_cons_self a as⟩
      have hxrem : x ∈ rem := (List.mem_filter.mp hx).1
      have hxp : (depsOf x).all (fun d => !rem.contains d) = true :=
        (List.mem_filter.mp hx).2
      have hlt : (rem.filter
          (fun t => !((depsOf t).all (fun d => !rem.contains d)))).length <
          rem.length :=
        length_filter_lt_of_mem_not hxrem
          (by rw [Bool.not_eq_false']; exact hxp)
      have hperm2 := ih
        (rem.filter (fun t => !((depsOf t).all (fun d => !rem.contains d))))
        (by omega) (hnd.filter _)
      refine List.Perm.trans (List.Perm.append_left (readyList rem) hperm2) ?_
      rw [hready]
      exact List.filter_append_perm _ rem

lemma topoLoop_perm (rem : List String) (hnd : rem.Nodup) :
    (topoLoop rem).Perm rem :=
  topoLoop_perm_aux rem.length rem (le_refl _) hnd

lemma indexOf_append_left (a : String) (l1 l2 : List String) (h : a ∈ l1) :
    List.indexOf a (l1 ++ l2) = List.indexOf a l1 := by
  induction l1 with
  | nil => simp at h
  | cons x xs ih =>
    rcases List.mem_cons.mp h with h1 | h2
    · subst h1; simp [List.indexOf_cons]
    · by_cases hx : x == a
      · simp [List.indexOf_cons, hx]
      · simp only [List.cons_append, List.indexOf_cons, hx, cond_false]
        rw [ih h2]

lemma indexOf_append_right (a : String) (l1 l2 : List String) (h : a ∉ l1) :
    List.indexOf a (l1 ++ l2) = l1.length + List.indexOf a l2 := by
  induction l1 with
  | nil => simp
  | cons x xs ih =>
    have hxa : (x == a) = false := by
      simp only [beq_eq_false_iff_ne, ne_eq]
      rintro rfl
      exact h (List.mem_cons_self x xs)
    simp only [List.cons_append, List.indexOf_cons, hxa, cond_false]
    rw [ih (fun hm => h (List.mem_cons_of_mem x hm))]
    simp only [List.length_cons]
    omega

/-- The claim's "B's type depends, directly or transitively via the
dependency graph, on A's type": transitive closure of
`SemanticTypes.DEPENDENCIES`. -/
inductive DependsOn : String → String → Prop where
  | direct : ∀ {b a : String}, a ∈ depsOf b → DependsOn b a
  | step : ∀ {b c a : String}, c ∈ depsOf b → DependsOn c a → DependsOn b a

/-- Dependency of `b` on `a` through a chain of direct dependencies all of
whose intermediate types lie in `S`. -/
inductive ChainDep (S : List String) : String → String → Prop where
  | direct : ∀ {b a : String}, a ∈ depsOf b → ChainDep S b a
  | step : ∀ {b c a : String}, c ∈ depsOf b → c ∈ S → ChainDep S c a →
      ChainDep S b a

lemma chainDep_dependsOn {S : List String} {b a : String}
    (h : ChainDep S b a) : DependsOn b a := by
  induction h with
  | direct hd => exact .direct hd
  | step hc _ _ ih => exact .step hc ih

lemma chainDep_exists_dep {S : List String} {b a : String}
    (h : ChainDep S b a) (ha : a ∈ S) : ∃ d ∈ depsOf b, d ∈ S := by
  cases h with
  | direct hd => exact ⟨a, hd, ha⟩
  | step hc hcS _ => exact ⟨_, hc, hcS⟩

lemma not_mem_ready_of_dep {rem : List String} {b : String}
    (h : ∃ d ∈ depsOf b, d ∈ rem) : b ∉ readyList rem := by
  intro hb
  obtain ⟨d, hd, hdm⟩ := h
  have hall := (List.mem_filter.mp hb).2
  rw [List.all_eq_true] at hall
  have := hall d hd
  simp only [Bool.not_eq_true'] at this
  exact absurd hdm (by simpa using this)

lemma chainDep_shrink {rem : List String} {b a : String}
    (h : ChainDep rem b a) (ha : a ∈ rem) :
    ChainDep (rem.filter (fun t => !((readyList rem).contains t))) b a := by
  induction h with
  | direct hd => exact .direct hd
  | step hc hcS hrec ih =>
    refine .step hc ?_ (ih ha)
    have hcnr := not_mem_ready_of_dep (chainDep_exists_dep hrec ha)
    exact List.mem_filter.mpr ⟨hcS, by simpa using hcnr⟩

lemma topoLoop_chain_lt_aux : ∀ (n : Nat) (rem : List String),
    rem.length ≤ n → rem.Nodup → ∀ a b, a ∈ rem → b ∈ rem →
    ChainDep rem b a →
    List.indexOf a (topoLoop rem) < List.indexOf b (topoLoop rem) := by
  intro n
  induction n with
  | zero =>
    intro rem hlen _ a b ha _ _
    have h0 : rem = [] := List.eq_nil_of_length_eq_zero (Nat.le_zero.mp hlen)
    subst h0
    simp at ha
  | succ k ih =>
    intro rem hlen hnd a b ha hb hchain
    have hne : rem ≠ [] := by rintro rfl; simp at ha
    have hbnr : b ∉ readyList rem :=
      not_mem_ready_of_dep (chainDep_exists_dep hchain ha)
    rw [topoLoop_eq_of_ne_nil rem hne]
    by_cases har : a ∈ readyList rem
    · rw [indexOf_append_left a _ _ har, indexOf_append_right b _ _ hbnr]
      have h1 : List.indexOf a (readyList rem) < (readyList rem).length :=
        List.indexOf_lt_length.mpr har
      omega
    · have ha' : a ∈ rem.filter (fun t => !((readyList rem).contains t)) :=
        List.mem_filter.mpr ⟨ha, by simpa using har⟩
      have hb' : b ∈ rem.filter (fun t => !((readyList rem).contains t)) :=
        List.mem_filter.mpr ⟨hb, by simpa using hbnr⟩
      have hchain' := chainDep_shrink hchain ha
      obtain ⟨x, hx⟩ : ∃ x, x ∈ readyList rem := by
        cases hh : readyList rem with
        | nil => exact absurd hh (readyList_ne_nil rem hne)
        | cons c cs => exact ⟨c, List.mem_cons_self c cs⟩
      have hlt : (rem.filter (fun t => !((readyList rem).contains t))).length <
          rem.length :=
        length_filter_lt_of_mem_not ((List.mem_filter.mp hx).1)
          (by rw [Bool.not_eq_false']; simpa using hx)
      have hrec := ih (rem.filter (fun t => !((readyList rem).contains t)))
        (by omega) (hnd.filter _) a b ha' hb' hchain'
      rw [indexOf_append_right a _ _ har, indexOf_append_right b _ _ hbnr]
      omega

lemma topoLoop_chain_lt (rem : List String) (hnd : rem.Nodup) (a b : String)
    (ha : a ∈ rem) (hb : b ∈ rem) (hchain : ChainDep rem b a) :
    List.indexOf a (topoLoop rem) < List.indexOf b (topoLoop rem) :=
  topoLoop_chain_lt_aux rem.length rem (le_refl _) hnd a b ha hb hchain

/-! ### SemanticRegistry (octotools/models/semantic_registry.py)

The registry object's state is its `fragments` dict; its `dependencies`
field is the fixed `SemanticTypes.DEPENDENCIES` table (`depsOf` /
`depKeys` here). -/

/-- `register_fragment`: `self.fragments[fragment.semantic_type] = fragment`. -/
def register_fragment (fragments : List (String × Fragment)) (f : Fragment) :
    List (String × Fragment) :=
  dInsert fragments f.semantic_type f

/-- `check_dependencies`: the dependencies of the type that have no
registered fragment, and whether that list is empty. -/
def check_dependencies (fragments : List (String × Fragment))
    (semantic_type : String) : Bool × List String :=
  let missing := (depsOf semantic_type).filter
    (fun dep => !dContains fragments dep)
  (missing.isEmpty, missing)

/-- `get_next_possible_types`: the dependency-graph types with no
registered fragment whose dependencies are all satisfied, in key order. -/
def get_next_possible_types (fragments : List (String × Fragment)) :
    List String :=
  depKeys.filter
    (fun t => !dContains fragments t && (check_dependencies fragments t).1)

/-- `get_completion_status`: presence map over the dependency-graph keys. -/
def get_completion_status (fragments : List (String × Fragment)) :
    List (String × Bool) :=
  depKeys.map (fun t => (t, dContains fragments t))

/-! ### The assembler's fragment ordering
(octotools/tools/qiskit_code_assembler/tool.py, `_sort_fragments_by_dependencies`) -/

/-- The comprehension `{f.semantic_type: f for f in fragments}`. -/
def fragmentTypeDict (fragments : List Fragment) : List (String × Fragment) :=
  fragments.foldl (fun d f => dInsert d f.semantic_type f) []

/-- `_sort_fragments_by_dependencies`: topologically sort the fragment
types and re-emit the fragments in that order (types without a fragment
are skipped). `enum` is the iteration order of `set(fragment_types)`
inside `topological_sort`. -/
def _sort_fragments_by_dependencies (enum : List String)
    (fragments : List Fragment) : List Fragment :=
  (topological_sort enum).filterMap (fun t => dGet (fragmentTypeDict fragments) t)

lemma dGet_foldl_keyInsert_not_mem {α : Type} (key : α → String)
    (l : List α) (d0 : List (String × α)) (t : String)
    (h : ∀ f ∈ l, key f ≠ t) :
    dGet (l.foldl (fun d f => dInsert d (key f) f) d0) t = dGet d0 t := by
  induction l generalizing d0 with
  | nil => rfl
  | cons g gs ih =>
    simp only [List.foldl_cons]
    rw [ih _ (fun f hf => h f (List.mem_cons_of_mem g hf)), dGet_dInsert]
    rw [if_neg (fun hh => h g (List.mem_cons_self g gs) hh.symm)]

lemma dGet_foldl_keyInsert_mem {α : Type} (key : α → String)
    (l : List α) (d0 : List (String × α)) (f : α) (hf : f ∈ l)
    (hnd : (l.map key).Nodup) :
    dGet (l.foldl (fun d f => dInsert d (key f) f) d0) (key f) = some f := by
  induction l generalizing d0 with
  | nil => simp at hf
  | cons g gs ih =>
    simp only [List.map_cons, List.nodup_cons] at hnd
    rcases List.mem_cons.mp hf with rfl | hmem
    · simp only [List.foldl_cons]
      rw [dGet_foldl_keyInsert_not_mem key gs _ _
        (fun f' hf' hh => hnd.1 (by rw [← hh]; exact List.mem_map_of_mem key hf'))]
      rw [dGet_dInsert, if_pos rfl]
    · simp only [List.foldl_cons]
      exact ih _ hmem hnd.2

lemma dGet_foldl_keyInsert_some {α : Type} (key : α → String)
    (l : List α) (d0 : List (String × α)) (t : String) (f : α)
    (h : dGet (l.foldl (fun d f => dInsert d (key f) f) d0) t = some f) :
    (f ∈ l ∧ key f = t) ∨ dGet d0 t = some f := by
  induction l generalizing d0 with
  | nil => exact Or.inr h
  | cons g gs ih =>
    simp only [List.foldl_cons] at h
    rcases ih _ h with ⟨hm, hk⟩ | hd
    · exact Or.inl ⟨List.mem_cons_of_mem g hm, hk⟩
    · rw [dGet_dInsert] at hd
      by_cases ht : t = key g
      · rw [if_pos ht] at hd
        obtain rfl : g = f := by injection hd
        exact Or.inl ⟨List.mem_cons_self g gs, ht.symm⟩
      · rw [if_neg ht] at hd
        exact Or.inr hd

lemma map_type_filterMap_dGet (D : List (String × Fragment)) (l : List String)
    (h : ∀ t ∈ l, ∃ f, dGet D t = some f ∧ f.semantic_type = t) :
    (l.filterMap (fun t => dGet D t)).map Fragment.semantic_type = l := by
  induction l with
  | nil => simp
  | cons t ts ih =>
    obtain ⟨f, hf, hft⟩ := h t (List.mem_cons_self t ts)
    simp only [List.filterMap_cons, hf, List.map_cons, hft]
    rw [ih (fun u hu => h u (List.mem_cons_of_mem t hu))]

/-! ### Memory (octotools/models/memory.py) -/

/-- One entry of `self.actions`. -/
structure ActionRec : Type where
  tool_name : String
  sub_goal : String
  command : String
  result : PyVal

/-- The Memory object's state (query/files are irrelevant to the claims). -/
structure Memory : Type where
  actions : List (String × ActionRec)
  semantic_fragments : List (String × Fragment)
  semantic_workflow : List String
  workflow_progress : List (String × Bool)

/-- A fresh Memory: `_init_workflow_progress` sets every dependency-graph
key to `False`. -/
def memoryInit : Memory :=
  { actions := []
    semantic_fragments := []
    semantic_workflow := []
    workflow_progress := depKeys.map (fun t => (t, false)) }

/-- Python truthiness fallback `x or y` for an optional string (`None`
and `""` are falsy). -/
def strOr : Option String → String → String
  | some s, y => if s = "" then y else s
  | none, y => y

/-- The storing part of `add_action`:
`self.actions[f"Action Step {step_count}"] = action`. -/
def addActionStore (m : Memory) (step_count : Nat)
    (tool_name sub_goal command : String) (result : PyVal) : Memory :=
  let action : ActionRec :=
    { tool_name := tool_name, sub_goal := sub_goal, command := command,
      result := result }
  { m with actions :=
      dInsert m.actions ("Action Step " ++ toString step_count) action }

mutual

/-- `Memory.add_action`: store the action record, and when the result is
a list whose first element is a `SemanticCodeFragment`, hand that
fragment to `add_semantic_fragment`. -/
def add_action (m : Memory) (step_count : Nat)
    (tool_name sub_goal command : String) (result : PyVal) : Memory :=
  let m1 := addActionStore m step_count tool_name sub_goal command result
  match result with
  | .list (PyVal.frag f :: _) =>
      add_semantic_fragment m1 f (some step_count) (some tool_name)
        (some sub_goal)
  | _ => m1
termination_by sizeOf result
decreasing_by
  simp_wf
  omega

/-- `Memory.add_semantic_fragment`: store the fragment by type, mark the
type complete, append it to the execution-order history if absent, and
(when a step count was given) record a backward-compatible action whose
result is the fragment itself. -/
def add_semantic_fragment (m : Memory) (f : Fragment)
    (step_count : Option Nat) (tool_name sub_goal : Option String) : Memory :=
  let m1 := { m with
    semantic_fragments := dInsert m.semantic_fragments f.semantic_type f
    workflow_progress := dInsert m.workflow_progress f.semantic_type true
    semantic_workflow :=
      if f.semantic_type ∈ m.semantic_workflow then m.semantic_workflow
      else m.semantic_workflow ++ [f.semantic_type] }
  match step_count with
  | some sc =>
      add_action m1 sc (strOr tool_name f.tool_source)
        (strOr sub_goal ("Generate " ++ f.semantic_type ++ " fragment"))
        ("Generated semantic fragment: " ++ f.semantic_type) (.frag f)
  | none => m1
termination_by sizeOf f + 2
decreasing_by
  simp_wf
  omega

end

/-! ### The Legacy Adapter `_wrap_legacy_result`
(octotools/models/executor.py, lines 297-333) -/

/-- Python falsiness of a `TOOL_SEMANTIC_MAPPING` value (`not semantic_type`). -/
def tsmFalsy : TSMVal → Bool
  | .s s => s = ""
  | .l ts => ts.isEmpty

/-- The `var_name_map` literal of `_wrap_legacy_result`. -/
def varNameMap : List (String × String) :=
  [("spec", "spec_ir"), ("hamiltonian", "hamiltonian"),
   ("ansatz", "ansatz"), ("optimizer", "optimizer"),
   ("vqe_execution", "vqe_result")]

/-- `_wrap_legacy_result(result, tool_name)`: adapt a legacy-shaped dict
into a fragment. Returns `none` when the tool has no mapping, the mapped
value is falsy, the record has no "Code" key, or the mapped list is empty
(`semantic_type[0]` would raise and the `except` returns `None`). -/
def _wrap_legacy_result (result : List (String × PyVal))
    (tool_name : String) : Option Fragment :=
  match toolSemanticMapping tool_name with
  | none => none
  | some v =>
    if tsmFalsy v = true ∨ dContains result "Code" = false then none
    else
      match (match v with | .s s => some s | .l ts => ts.head?),
          dGet result "Code" with
      | some semantic_type, some codeVal =>
          let variable_name := (dGet varNameMap semantic_type).getD "result"
          some (mkFragment codeVal semantic_type variable_name
            (depsOf semantic_type) [variable_name]
            ((dGet result "metadata").getD (.dict [])) tool_name)
      | _, _ => none

/-! ### `_build_semantic_context` (octotools/models/executor.py, lines 241-295) -/

/-- Python truthiness of `fragment.execution_context`
(`if fragment.execution_context:`): `None` and `{}` are falsy. -/
def ctxTruthy : Option (List (String × PyVal)) → Bool
  | none => false
  | some l => !l.isEmpty

/-- Models `var_name.startswith('__')` (the first two characters are
underscores). -/
def startsWithDunder (s : String) : Bool :=
  decide (s.data.take 2 = ['_', '_'])

/-- The loop body of `_build_semantic_context` for one registry entry:
add the `{type}_fragment` alias, the `{type}` alias, the fragment's
`provides` variables found in its execution context, and finally every
other non-dunder, non-builtin execution-context variable not already
present. -/
def addFragmentToContext (ctx : List (String × PyVal))
    (semantic_type : String) (f : Fragment) : List (String × PyVal) :=
  let c1 := dInsert ctx (semantic_type ++ "_fragment") (.frag f)
  let c2 := dInsert c1 semantic_type (.frag f)
  let c3 :=
    if ctxTruthy f.execution_context then
      f.provides.foldl (fun c var_name =>
        match dGet (f.execution_context.getD []) var_name with
        | some v => dInsert c var_name v
        | none => c) c2
    else c2
  if ctxTruthy f.execution_context then
    (f.execution_context.getD []).foldl (fun c kv =>
      if startsWithDunder kv.1 = false ∧
          kv.1 ∉ ["builtins", "globals", "locals"] ∧
          dContains c kv.1 = false
      then dInsert c kv.1 kv.2 else c) c3
  else c3

/-- `_build_semantic_context`: fold the registry's fragments dict in
insertion order, then add the `semantic_fragments` list. -/
def _build_semantic_context (fragments : List (String × Fragment)) :
    List (String × PyVal) :=
  let ctx := fragments.foldl (fun c kv => addFragmentToContext c kv.1 kv.2) []
  dInsert ctx "semantic_fragments" (.list (fragments.map (fun kv => PyVal.frag kv.2)))

lemma nodupKeys_foldl {β : Type} (step : List (String × PyVal) → β →
      List (String × PyVal)) (l : List β)
    (hstep : ∀ c x, NodupKeys c → NodupKeys (step c x))
    (d : List (String × PyVal)) (hd : NodupKeys d) :
    NodupKeys (l.foldl step d) := by
  induction l generalizing d with
  | nil => exact hd
  | cons x xs ih => exact ih _ (hstep _ _ hd)

lemma nodupKeys_addFragmentToContext (ctx : List (String × PyVal))
    (semantic_type : String) (f : Fragment) (h : NodupKeys ctx) :
    NodupKeys (addFragmentToContext ctx semantic_type f) := by
  unfold addFragmentToContext
  have h2 : NodupKeys (dInsert (dInsert ctx (semantic_type ++ "_fragment")
      (.frag f)) semantic_type (.frag f)) :=
    nodupKeys_dInsert _ _ _ (nodupKeys_dInsert _ _ _ h)
  have h3 : NodupKeys (if ctxTruthy f.execution_context then
      f.provides.foldl (fun c var_name =>
        match dGet (f.execution_context.getD []) var_name with
        | some v => dInsert c var_name v
        | none => c)
        (dInsert (dInsert ctx (semantic_type ++ "_fragment") (.frag f))
          semantic_type (.frag f))
    else (dInsert (dInsert ctx (semantic_type ++ "_fragment") (.frag f))
          semantic_type (.frag f))) := by
    by_cases hc : ctxTruthy f.execution_context
    · rw [if_pos hc]
      refine nodupKeys_foldl _ _ ?_ _ h2
      intro c x hcnd
      cases hg : dGet (f.execution_context.getD []) x with
      | none => simpa [hg] using hcnd
      | some v => simpa [hg] using nodupKeys_dInsert c x v hcnd
    · rw [if_neg hc]
      exact h2
  by_cases hc : ctxTruthy f.execution_context
  · rw [if_pos hc]
    refine nodupKeys_foldl _ _ ?_ _ h3
    intro c kv hcnd
    by_cases hcond : startsWithDunder kv.1 = false ∧
        kv.1 ∉ ["builtins", "globals", "locals"] ∧ dContains c kv.1 = false
    · rw [if_pos hcond]
      exact nodupKeys_dInsert _ _ _ hcnd
    · rw [if_neg hcond]
      exact hcnd
  · rw [if_neg hc]
    exact h3

lemma nodupKeys_build_semantic_context (fragments : List (String × Fragment)) :
    NodupKeys (_build_semantic_context fragments) := by
  unfold _build_semantic_context
  refine nodupKeys_dInsert _ _ _ ?_
  refine nodupKeys_foldl _ _ ?_ _ (by simp [NodupKeys])
  intro c kv hc
  exact nodupKeys_addFragmentToContext c kv.1 kv.2 hc

/-! ### The Execution Engine (octotools/models/executor.py)

`exec(code, globals(), ctx)` is modelled by an uninterpreted oracle
`runBlock code ctx`, whose outcome is: the SIGALRM deadline fired during
the execution (`TimeoutError` raised), some other exception was raised,
or the execution completed, leaving `ctx` in a final state (`exec`
mutates its local-namespace argument in place; a raising execution's
partial writes are confined to that local dict and discarded with it). -/

/-- Outcome of `exec`-ing a piece of code against a context. -/
inductive ExecOutcome : Type where
  | timeout : ExecOutcome
  | raises : String → ExecOutcome
  | completes : List (String × PyVal) → ExecOutcome

/-- Type of the `exec` oracle. -/
def RunBlock : Type := PyVal → List (String × PyVal) → ExecOutcome

/-- The `SemanticExecutor` state touched by the claims: the deadline
`max_time`, the semantic registry's fragments dict, and
`global_variables`. -/
structure ExecutorState : Type where
  max_time : Nat
  fragments : List (String × Fragment)
  global_variables : List (String × PyVal)

/-- `_executeFragmentForVariables` is `_execute_fragment_for_variables`
minus the state plumbing: run `fragment.code` against a copy of
`global_variables`; on completion pull each `provides` variable found in
the final context into `global_variables` and mark the fragment executed;
any exception (the `except Exception` also catches `TimeoutError`) leaves
fragment and globals untouched. Returns the (possibly updated) fragment
and globals. -/
def _execute_fragment_for_variables (runBlock : RunBlock)
    (global_variables : List (String × PyVal)) (f : Fragment) :
    Fragment × List (String × PyVal) :=
  match runBlock f.code global_variables with
  | .completes ctx' =>
      let gv' := f.provides.foldl (fun g var_name =>
        match dGet ctx' var_name with
        | some v => dInsert g var_name v
        | none => g) global_variables
      (f.withExecState true (some ctx'), gv')
  | _ => (f, global_variables)

/-- `register_semantic_fragment`: register the fragment in the registry
and execute it for variables. The source registers the object first and
then mutates it in place; since the in-place mutation does not change the
dict position, this equals inserting the post-execution fragment. -/
def register_semantic_fragment (runBlock : RunBlock) (st : ExecutorState)
    (f : Fragment) : ExecutorState :=
  let p := _execute_fragment_for_variables runBlock st.global_variables f
  { st with fragments := dInsert st.fragments p.1.semantic_type p.1,
            global_variables := p.2 }

/-- The `enhanced_context` of `execute_with_timeout`:
`{'tool': tool, **self.global_variables, **local_context,
**self._build_semantic_context()}`. -/
def buildEnhancedContext (st : ExecutorState) (tool : PyVal)
    (local_context : List (String × PyVal)) : List (String × PyVal) :=
  dMergeInto
    (dMergeInto (dMergeInto (dInsert [] "tool" tool) st.global_variables)
      local_context)
    (_build_semantic_context st.fragments)

/-- What one block's execution hands back to the loop of
`execute_tool_command`: a returned value (possibly Python `None`), or an
exception that escaped `execute_with_timeout` (which catches only
`TimeoutError`). -/
inductive BlockRes : Type where
  | ok : Option PyVal → BlockRes
  | exn : String → BlockRes

/-- The sentinel string returned on `TimeoutError`. -/
def timeoutSentinel (max_time : Nat) : String :=
  "Execution timed out after " ++ toString max_time ++ " seconds"

/-- `execute_with_timeout(block, local_context)`: build the enhanced
context, run the block under the alarm; on `TimeoutError` return the
sentinel string; on completion read `execution` from the context and, if
it is a fragment (or a nonempty list whose first element is a dict that
the legacy adapter accepts), register it. -/
def execute_with_timeout (runBlock : RunBlock) (st : ExecutorState)
    (tool_name : String) (tool : PyVal) (block : String)
    (local_context : List (String × PyVal)) : BlockRes × ExecutorState :=
  match runBlock (.str block) (buildEnhancedContext st tool local_context) with
  | .timeout => (.ok (some (.str (timeoutSentinel st.max_time))), st)
  | .raises msg => (.exn msg, st)
  | .completes ctx' =>
      let result := dGet ctx' "execution"
      match result with
      | some (.frag f) => (.ok result, register_semantic_fragment runBlock st f)
      | some (.list (x :: _)) =>
          match x with
          | .dict r =>
              match _wrap_legacy_result r tool_name with
              | some wf => (.ok result, register_semantic_fragment runBlock st wf)
              | none => (.ok result, st)
          | _ => (.ok result, st)
      | _ => (.ok result, st)

/-- Result of `execute_tool_command`: either the step-level error string
of the outer `except`, or the per-block `executions` list. -/
inductive CmdResult : Type where
  | err : String → CmdResult
  | oks : List PyVal → CmdResult

/-- The `for block in command_blocks:` loop of `execute_tool_command`,
with the accumulated `executions` kept in reverse. A `None` result is
recorded as "No execution captured from block: ..."; an exception that
escapes `execute_with_timeout` reaches the outer `except` and produces
the step-level error string (the remaining blocks never run). -/
def execTCgo (runBlock : RunBlock) (tool_name : String) (tool : PyVal) :
    List String → ExecutorState → List PyVal → CmdResult × ExecutorState
  | [], st, acc => (.oks acc.reverse, st)
  | block :: rest, st, acc =>
      match execute_with_timeout runBlock st tool_name tool block
          [("tool", tool)] with
      | (.exn msg, st') => (.err ("Error in execute_tool_command: " ++ msg), st')
      | (.ok v, st') =>
          execTCgo runBlock tool_name tool rest st'
            ((match v with
              | some r => r
              | none => .str ("No execution captured from block: " ++ block)) :: acc)

/-- `execute_tool_command(tool_name, command)`. The import /
`getattr` / instantiation / `set_custom_output_dir` prologue is the
`tool_resolution` argument (its failure is caught by the same outer
`except`); `command_blocks` is the output of the regex block segmentation
`split_commands(command)`. -/
def execute_tool_command (runBlock : RunBlock) (st : ExecutorState)
    (tool_name : String) (tool_resolution : Except String PyVal)
    (command_blocks : List String) : CmdResult × ExecutorState :=
  match tool_resolution with
  | .error e => (.err ("Error in execute_tool_command: " ++ e), st)
  | .ok tool => execTCgo runBlock tool_name tool command_blocks st []

/-! ### Theorems for the claims -/

lemma check_dependencies_fst (fragments : List (String × Fragment))
    (t : String) :
    (check_dependencies fragments t).1 = true ↔
      ∀ d ∈ depsOf t, dContains fragments d = true := by
  unfold check_dependencies
  rw [List.isEmpty_iff, List.eq_nil_iff_forall_not_mem]
  constructor
  · intro h d hd
    by_contra hc
    simp only [Bool.not_eq_true] at hc
    exact h d (List.mem_filter.mpr ⟨hd, by simp [hc]⟩)
  · intro h d hd
    rcases List.mem_filter.mp hd with ⟨h1, h2⟩
    simp [h d h1] at h2

lemma dGet_completion_status (fragments : List (String × Fragment))
    (d : String) :
    dGet (get_completion_status fragments) d =
      if d ∈ depKeys then some (dContains fragments d) else none := by
  unfold get_completion_status
  exact dGet_map_keyed depKeys (fun t => dContains fragments t) d

/-- C4: for every semantic type `t`, `check_dependencies` returns `true`
exactly when every dependency of `t` has completion status `true` in
`get_completion_status`, and the second component is exactly the set of
dependencies of `t` with no registered fragment. -/
theorem check_dependencies_correct (fragments : List (String × Fragment))
    (t : String) :
    (((check_dependencies fragments t).1 = true) ↔
      ∀ d ∈ depsOf t, dGet (get_completion_status fragments) d = some true)
    ∧ (∀ d, d ∈ (check_dependencies fragments t).2 ↔
        (d ∈ depsOf t ∧ dContains fragments d = false)) := by
  constructor
  · rw [check_dependencies_fst]
    constructor
    · intro h d hd
      rw [dGet_completion_status,
        if_pos (mem_depKeys_of_mem_depsOf t d hd), h d hd]
    · intro h d hd
      have := h d hd
      rw [dGet_completion_status,
        if_pos (mem_depKeys_of_mem_depsOf t d hd)] at this
      injection this
  · intro d
    show d ∈ (depsOf t).filter (fun dep => !dContains fragments dep) ↔ _
    rw [List.mem_filter]
    simp [Bool.not_eq_true']

/-- C8: `get_next_possible_types` contains exactly the dependency-graph
types without a registered fragment all of whose dependencies have a
registered fragment — in particular, never a type that already has a
fragment. -/
theorem get_next_possible_types_correct (fragments : List (String × Fragment))
    (t : String) :
    t ∈ get_next_possible_types fragments ↔
      (t ∈ depKeys ∧ dContains fragments t = false ∧
        ∀ d ∈ depsOf t, dContains fragments d = true) := by
  unfold get_next_possible_types
  rw [List.mem_filter]
  constructor
  · rintro ⟨h1, h2⟩
    rw [Bool.and_eq_true] at h2
    refine ⟨h1, by simpa using h2.1, (check_dependencies_fst fragments t).mp h2.2⟩
  · rintro ⟨h1, h2, h3⟩
    refine ⟨h1, ?_⟩
    rw [Bool.and_eq_true]
    exact ⟨by simp [h2], (check_dependencies_fst fragments t).mpr h3⟩

/-- C7: a record containing "Code" from the tool mapped to `hamiltonian`
is adapted into a fragment with primary variable "hamiltonian", semantic
type `hamiltonian` and the dependency graph's entry for `hamiltonian` as
declared dependencies; an unmapped tool or a record without "Code" yields
`none` (and the adapter is a total function — it raises nothing). -/
theorem wrap_legacy_result_correct :
    (∀ (record : List (String × PyVal)) (c : PyVal),
      dGet record "Code" = some c →
      ∃ fr, _wrap_legacy_result record "Qiskit_TFIM_Hamiltonian_Tool" = some fr ∧
        fr.variable_name = "hamiltonian" ∧
        fr.semantic_type = "hamiltonian" ∧
        fr.dependencies = depsOf "hamiltonian" ∧
        fr.provides = ["hamiltonian"] ∧
        fr.code = c)
    ∧ (∀ (record : List (String × PyVal)) (tool_name : String),
        toolSemanticMapping tool_name = none →
        _wrap_legacy_result record tool_name = none)
    ∧ (∀ (record : List (String × PyVal)) (tool_name : String),
        dGet record "Code" = none →
        _wrap_legacy_result record tool_name = none) := by
  refine ⟨?_, ?_, ?_⟩
  · intro record c hc
    have hmap : toolSemanticMapping "Qiskit_TFIM_Hamiltonian_Tool" =
        some (.s "hamiltonian") := rfl
    have hcond : ¬(tsmFalsy (TSMVal.s "hamiltonian") = true ∨
        dContains record "Code" = false) := by
      simp [tsmFalsy, dContains, hc]
    refine ⟨mkFragment c "hamiltonian" "hamiltonian" (depsOf "hamiltonian")
      ["hamiltonian"] ((dGet record "metadata").getD (.dict []))
      "Qiskit_TFIM_Hamiltonian_Tool", ?_, rfl, rfl, rfl, rfl, rfl⟩
    simp only [_wrap_legacy_result, hmap, hc]
    rw [if_neg hcond]
    rfl
  · intro record tool_name h
    simp only [_wrap_legacy_result, h]
  · intro record tool_name h
    cases hm : toolSemanticMapping tool_name with
    | none =>
      simp only [_wrap_legacy_result, hm]
    | some v =>
      have hf : tsmFalsy v = true ∨ dContains record "Code" = false :=
        Or.inr (by simp [dContains, h])
      simp only [_wrap_legacy_result, hm, if_pos hf]

/-- Witness for C7 at concrete inputs. -/
theorem wrap_legacy_result_correct_witness :
    dGet [("Code", PyVal.str "H = X")] "Code" = some (PyVal.str "H = X") ∧
    (∃ fr, _wrap_legacy_result [("Code", PyVal.str "H = X")]
        "Qiskit_TFIM_Hamiltonian_Tool" = some fr ∧
      fr.variable_name = "hamiltonian" ∧
      fr.semantic_type = "hamiltonian" ∧
      fr.dependencies = depsOf "hamiltonian" ∧
      fr.provides = ["hamiltonian"] ∧
      fr.code = PyVal.str "H = X") ∧
    toolSemanticMapping "SomeOtherTool" = none ∧
    _wrap_legacy_result [("Code", PyVal.str "H = X")] "SomeOtherTool" = none ∧
    dGet ([] : List (String × PyVal)) "Code" = none ∧
    _wrap_legacy_result [] "Qiskit_TFIM_Hamiltonian_Tool" = none :=
  ⟨rfl, wrap_legacy_result_correct.1 _ _ rfl, rfl,
    wrap_legacy_result_correct.2.1 _ _ rfl, rfl,
    wrap_legacy_result_correct.2.2 _ _ rfl⟩

/-- C10: when the fragment's code raises during
`register_semantic_fragment`, the fragment is still stored in the
registry (its type reported complete by `get_completion_status`), the
call returns normally (it is a total function), the stored fragment keeps
`is_executed = False` and `execution_context = None`, and
`global_variables` is unchanged. -/
theorem register_semantic_fragment_failed_exec (runBlock : RunBlock)
    (st : ExecutorState) (f : Fragment) (msg : String)
    (hrun : runBlock f.code st.global_variables = .raises msg)
    (hexec : f.is_executed = false) (hctx : f.execution_context = none) :
    (register_semantic_fragment runBlock st f).global_variables =
        st.global_variables ∧
    (register_semantic_fragment runBlock st f).fragments =
        dInsert st.fragments f.semantic_type f ∧
    (∃ g, dGet (register_semantic_fragment runBlock st f).fragments
        f.semantic_type = some g ∧
      g.is_executed = false ∧ g.execution_context = none) ∧
    (f.semantic_type ∈ depKeys →
      dGet (get_completion_status
        (register_semantic_fragment runBlock st f).fragments)
        f.semantic_type = some true) := by
  have hp : _execute_fragment_for_variables runBlock st.global_variables f =
      (f, st.global_variables) := by
    unfold _execute_fragment_for_variables
    rw [hrun]
  unfold register_semantic_fragment
  rw [hp]
  refine ⟨rfl, rfl, ⟨f, ?_, hexec, hctx⟩, ?_⟩
  · rw [dGet_dInsert]
    simp
  · intro hk
    rw [dGet_completion_status, if_pos hk, dContains_dInsert]
    simp

/-- Witness for C10 at concrete inputs. -/
theorem register_semantic_fragment_failed_exec_witness :
    ((fun _ _ => ExecOutcome.raises "boom")
        (mkFragment (PyVal.str "raise ValueError") "spec" "spec_ir" []
          [] (.dict []) "Qiskit_TFIM_Spec_Tool").code
        (⟨120, [], []⟩ : ExecutorState).global_variables =
      ExecOutcome.raises "boom") ∧
    (mkFragment (PyVal.str "raise ValueError") "spec" "spec_ir" [] []
        (.dict []) "Qiskit_TFIM_Spec_Tool").is_executed = false ∧
    (mkFragment (PyVal.str "raise ValueError") "spec" "spec_ir" [] []
        (.dict []) "Qiskit_TFIM_Spec_Tool").execution_context = none ∧
    ((register_semantic_fragment (fun _ _ => ExecOutcome.raises "boom")
        ⟨120, [], []⟩
        (mkFragment (PyVal.str "raise ValueError") "spec" "spec_ir" [] []
          (.dict []) "Qiskit_TFIM_Spec_Tool")).global_variables =
      (⟨120, [], []⟩ : ExecutorState).global_variables ∧
     (register_semantic_fragment (fun _ _ => ExecOutcome.raises "boom")
        ⟨120, [], []⟩
        (mkFragment (PyVal.str "raise ValueError") "spec" "spec_ir" [] []
          (.dict []) "Qiskit_TFIM_Spec_Tool")).fragments =
      dInsert ([] : List (String × Fragment))
        (mkFragment (PyVal.str "raise ValueError") "spec" "spec_ir" [] []
          (.dict []) "Qiskit_TFIM_Spec_Tool").semantic_type
        (mkFragment (PyVal.str "raise ValueError") "spec" "spec_ir" [] []
          (.dict []) "Qiskit_TFIM_Spec_Tool") ∧
     (∃ g, dGet (register_semantic_fragment (fun _ _ => ExecOutcome.raises "boom")
          ⟨120, [], []⟩
          (mkFragment (PyVal.str "raise ValueError") "spec" "spec_ir" [] []
            (.dict []) "Qiskit_TFIM_Spec_Tool")).fragments
          (mkFragment (PyVal.str "raise ValueError") "spec" "spec_ir" [] []
            (.dict []) "Qiskit_TFIM_Spec_Tool").semantic_type = some g ∧
        g.is_executed = false ∧ g.execution_context = none) ∧
     ((mkFragment (PyVal.str "raise ValueError") "spec" "spec_ir" [] []
          (.dict []) "Qiskit_TFIM_Spec_Tool").semantic_type ∈ depKeys →
       dGet (get_completion_status
          (register_semantic_fragment (fun _ _ => ExecOutcome.raises "boom")
            ⟨120, [], []⟩
            (mkFragment (PyVal.str "raise ValueError") "spec" "spec_ir" [] []
              (.dict []) "Qiskit_TFIM_Spec_Tool")).fragments)
          (mkFragment (PyVal.str "raise ValueError") "spec" "spec_ir" [] []
            (.dict []) "Qiskit_TFIM_Spec_Tool").semantic_type = some true)) :=
  ⟨rfl, rfl, rfl,
    register_semantic_fragment_failed_exec _ _ _ "boom" rfl rfl rfl⟩

/-- C1: a block whose code exceeds the deadline yields the timeout
sentinel as that block's entry in the executions list, leaves the
registry's fragments dict and `global_variables` untouched, and the loop
continues with the remaining blocks from the unchanged state. -/
theorem execute_block_timeout (runBlock : RunBlock) (st : ExecutorState)
    (tool_name : String) (tool : PyVal) (block : String) (rest : List String)
    (acc : List PyVal)
    (h : runBlock (.str block) (buildEnhancedContext st tool [("tool", tool)]) =
      .timeout) :
    execute_with_timeout runBlock st tool_name tool block [("tool", tool)] =
      (.ok (some (.str (timeoutSentinel st.max_time))), st) ∧
    execTCgo runBlock tool_name tool (block :: rest) st acc =
      execTCgo runBlock tool_name tool rest st
        (PyVal.str (timeoutSentinel st.max_time) :: acc) := by
  have h1 : execute_with_timeout runBlock st tool_name tool block
      [("tool", tool)] =
      (.ok (some (.str (timeoutSentinel st.max_time))), st) := by
    unfold execute_with_timeout
    rw [h]
  refine ⟨h1, ?_⟩
  conv_lhs => rw [execTCgo]
  rw [h1]

/-- Witness for C1 at concrete inputs. -/
theorem execute_block_timeout_witness :
    ((fun _ _ => ExecOutcome.timeout) (PyVal.str "b")
        (buildEnhancedContext ⟨5, [], []⟩ (.tool "T") [("tool", .tool "T")]) =
      ExecOutcome.timeout) ∧
    (execute_with_timeout (fun _ _ => ExecOutcome.timeout) ⟨5, [], []⟩
        "T" (.tool "T") "b" [("tool", .tool "T")] =
      (.ok (some (.str (timeoutSentinel (5 : Nat)))), ⟨5, [], []⟩) ∧
     execTCgo (fun _ _ => ExecOutcome.timeout) "T" (.tool "T")
        ["b", "c"] ⟨5, [], []⟩ [] =
      execTCgo (fun _ _ => ExecOutcome.timeout) "T" (.tool "T")
        ["c"] ⟨5, [], []⟩ [PyVal.str (timeoutSentinel (5 : Nat))]) :=
  ⟨rfl, execute_block_timeout (fun _ _ => ExecOutcome.timeout)
    ⟨5, [], []⟩ "T" (.tool "T") "b" ["c"] [] rfl⟩

/-- C3 (amended): only `TimeoutError` is caught at the block boundary.
Any other exception raised while executing a block escapes to the outer
handler: the whole command returns the step-level error string and the
remaining blocks are not executed; a tool import/instantiation failure
yields the same step-level error string. -/
theorem execute_block_exception (runBlock : RunBlock) (st : ExecutorState)
    (tool_name : String) (tool : PyVal) (block : String) (rest : List String)
    (acc : List PyVal) (msg : String)
    (h : runBlock (.str block) (buildEnhancedContext st tool [("tool", tool)]) =
      .raises msg) :
    execTCgo runBlock tool_name tool (block :: rest) st acc =
      (.err ("Error in execute_tool_command: " ++ msg), st) ∧
    ∀ (st0 : ExecutorState) (e : String) (blocks : List String),
      execute_tool_command runBlock st0 tool_name (.error e) blocks =
        (.err ("Error in execute_tool_command: " ++ e), st0) := by
  constructor
  · have h1 : execute_with_timeout runBlock st tool_name tool block
        [("tool", tool)] = (.exn msg, st) := by
      unfold execute_with_timeout
      rw [h]
    conv_lhs => rw [execTCgo]
    rw [h1]
  · intro st0 e blocks
    rfl

/-- Witness for C3's amended theorem at concrete inputs. -/
theorem execute_block_exception_witness :
    ((fun _ _ => ExecOutcome.raises "oops") (PyVal.str "b")
        (buildEnhancedContext ⟨5, [], []⟩ (.tool "T") [("tool", .tool "T")]) =
      ExecOutcome.raises "oops") ∧
    (execTCgo (fun _ _ => ExecOutcome.raises "oops") "T" (.tool "T")
        ["b", "c"] ⟨5, [], []⟩ [] =
      (.err ("Error in execute_tool_command: " ++ "oops"), ⟨5, [], []⟩) ∧
     ∀ (st0 : ExecutorState) (e : String) (blocks : List String),
       execute_tool_command (fun _ _ => ExecOutcome.raises "oops") st0 "T"
          (.error e) blocks =
        (.err ("Error in execute_tool_command: " ++ e), st0)) :=
  ⟨rfl, execute_block_exception (fun _ _ => ExecOutcome.raises "oops")
    ⟨5, [], []⟩ "T" (.tool "T") "b" ["c"] [] "oops" rfl⟩

/-- An `exec` oracle for the C3 counterexample: block "b1" raises a
non-timeout exception; any other string completes binding `execution` to
a spec fragment; fragment code completes with an empty context. -/
def c3RunBlock : RunBlock := fun code _ =>
  match code with
  | .str s =>
      if s = "b1" then .raises "boom"
      else .completes [("execution",
        .frag (mkFragment (.str "x = 1") "spec" "spec_ir" [] [] (.dict []) "T"))]
  | _ => .completes []

/-- Counterexample to C3 as stated: with two blocks whose first raises a
generic (non-timeout) exception, `execute_tool_command` does not convert
the exception into an error string in that block's slot of the
executions list — it returns the step-level error string and never runs
the second block (running the second block alone would have registered a
fragment; after the aborted run the registry is empty). -/
theorem execute_tool_command_exception_ce :
    execute_tool_command c3RunBlock ⟨5, [], []⟩ "T" (.ok (.tool "T"))
        ["b1", "b2"] =
      (.err "Error in execute_tool_command: boom", ⟨5, [], []⟩) ∧
    (execute_tool_command c3RunBlock ⟨5, [], []⟩ "T" (.ok (.tool "T"))
        ["b1", "b2"]).2.fragments = [] ∧
    dContains (execute_tool_command c3RunBlock ⟨5, [], []⟩ "T"
        (.ok (.tool "T")) ["b2"]).2.fragments "spec" = true :=
  ⟨rfl, rfl, rfl⟩

/-- C2 (amended): the enhanced context of a block is built in the
precedence order (later wins on collision): (a) the tool handle under
"tool", (b) the `global_variables` snapshot, (e) the caller-supplied
block-local bindings, and LAST (c)+(d) the semantic context — fragment
aliases and exposed fragment variables — so semantic-context entries,
not block-local bindings, win every name collision. -/
theorem buildEnhancedContext_lookup (st : ExecutorState) (tool : PyVal)
    (local_context : List (String × PyVal)) (k : String)
    (hgv : NodupKeys st.global_variables) (hlc : NodupKeys local_context) :
    dGet (buildEnhancedContext st tool local_context) k =
      (dGet (_build_semantic_context st.fragments) k).orElse (fun _ =>
        (dGet local_context k).orElse (fun _ =>
          (dGet st.global_variables k).orElse (fun _ =>
            if k = "tool" then some tool else none))) := by
  unfold buildEnhancedContext
  rw [dGet_dMergeInto _ _ _ (nodupKeys_build_semantic_context st.fragments),
      dGet_dMergeInto _ _ _ hlc, dGet_dMergeInto _ _ _ hgv, dGet_dInsert]
  simp [dGet]

/-- Witness for C2's amended theorem at concrete inputs. -/
theorem buildEnhancedContext_lookup_witness :
    NodupKeys ([("g", PyVal.int 1)] : List (String × PyVal)) ∧
    NodupKeys ([("tool", PyVal.tool "T")] : List (String × PyVal)) ∧
    dGet (buildEnhancedContext ⟨120, [], [("g", PyVal.int 1)]⟩
        (.tool "T") [("tool", PyVal.tool "T")]) "g" =
      (dGet (_build_semantic_context
          (⟨120, [], [("g", PyVal.int 1)]⟩ : ExecutorState).fragments) "g").orElse
        (fun _ => (dGet [("tool", PyVal.tool "T")] "g").orElse (fun _ =>
          (dGet [("g", PyVal.int 1)] "g").orElse (fun _ =>
            if "g" = "tool" then some (PyVal.tool "T") else none))) :=
  ⟨by unfold NodupKeys; decide, by unfold NodupKeys; decide,
    buildEnhancedContext_lookup ⟨120, [], [("g", PyVal.int 1)]⟩
      (.tool "T") [("tool", PyVal.tool "T")] "g"
      (by unfold NodupKeys; decide) (by unfold NodupKeys; decide)⟩

/-- Counterexample to C2 as stated: block-local bindings do NOT win every
name collision — the semantic context is merged after them. A registered
spec fragment whose execution context binds "tool" overrides the
caller's block-local `tool` handle in the enhanced context. -/
theorem buildEnhancedContext_local_loses_ce :
    dGet (buildEnhancedContext
        ⟨120,
         [("spec", Fragment.mk (.str "c") "spec" "spec_ir" [] ["spec_ir"]
            (.dict []) "T" true (some [("tool", PyVal.str "hijacked")]))],
         []⟩
        (.tool "T") [("tool", PyVal.tool "T")]) "tool" =
      some (PyVal.str "hijacked") ∧
    dGet [("tool", PyVal.tool "T")] "tool" = some (PyVal.tool "T") ∧
    PyVal.str "hijacked" ≠ PyVal.tool "T" :=
  ⟨rfl, rfl, fun h => PyVal.noConfusion h⟩

/-- C6 (amended): `add_action` stores the step in the audit log under
`"Action Step {step_count}"`, and when the FIRST element of the result
list is a fragment, that fragment's type is marked complete in the
progress map, appended to the execution-order history only if not already
present (so each type appears at most once, at its first occurrence), the
fragment is stored by type, and the audit-log entry for the step is the
backward-compatible record written by `add_semantic_fragment` (whose
result is the fragment itself). -/
theorem add_action_fragment_first (m : Memory) (step_count : Nat)
    (tool_name sub_goal command : String) (f : Fragment) (rest : List PyVal) :
    dGet (add_action m step_count tool_name sub_goal command
        (.list (PyVal.frag f :: rest))).actions
        ("Action Step " ++ toString step_count) =
      some { tool_name := strOr (some tool_name) f.tool_source,
             sub_goal := strOr (some sub_goal)
               ("Generate " ++ f.semantic_type ++ " fragment"),
             command := "Generated semantic fragment: " ++ f.semantic_type,
             result := .frag f } ∧
    dGet (add_action m step_count tool_name sub_goal command
        (.list (PyVal.frag f :: rest))).workflow_progress
        f.semantic_type = some true ∧
    (add_action m step_count tool_name sub_goal command
        (.list (PyVal.frag f :: rest))).semantic_workflow =
      (if f.semantic_type ∈ m.semantic_workflow then m.semantic_workflow
       else m.semantic_workflow ++ [f.semantic_type]) ∧
    dGet (add_action m step_count tool_name sub_goal command
        (.list (PyVal.frag f :: rest))).semantic_fragments
        f.semantic_type = some f := by
  have hstep : add_action m step_count tool_name sub_goal command
      (.list (PyVal.frag f :: rest)) =
      addActionStore
        { addActionStore m step_count tool_name sub_goal command
            (.list (PyVal.frag f :: rest)) with
          semantic_fragments := dInsert (addActionStore m step_count tool_name
            sub_goal command (.list (PyVal.frag f :: rest))).semantic_fragments
            f.semantic_type f
          workflow_progress := dInsert (addActionStore m step_count tool_name
            sub_goal command (.list (PyVal.frag f :: rest))).workflow_progress
            f.semantic_type true
          semantic_workflow :=
            if f.semantic_type ∈ (addActionStore m step_count tool_name
                sub_goal command
                (.list (PyVal.frag f :: rest))).semantic_workflow then
              (addActionStore m step_count tool_name sub_goal command
                (.list (PyVal.frag f :: rest))).semantic_workflow
            else (addActionStore m step_count tool_name sub_goal command
              (.list (PyVal.frag f :: rest))).semantic_workflow ++
                [f.semantic_type] }
        step_count (strOr (some tool_name) f.tool_source)
        (strOr (some sub_goal) ("Generate " ++ f.semantic_type ++ " fragment"))
        ("Generated semantic fragment: " ++ f.semantic_type) (.frag f) := by
    rw [add_action]
    rw [add_semantic_fragment]
    rw [add_action]
    intro g tail hgl
    exact PyVal.noConfusion hgl
  rw [hstep]
  simp only [addActionStore]
  refine ⟨?_, ?_, ?_, ?_⟩
  · rw [dGet_dInsert, if_pos rfl]
  · rw [dGet_dInsert]
    simp
  · trivial
  · rw [dGet_dInsert]
    simp

/-- Counterexample to C6 as stated: a results list containing a spec
fragment as its SECOND element (the first element is a plain string)
triggers no semantic processing — the fragment's type is neither marked
complete nor appended to the execution-order history, although an element
of the results is a fragment. -/
theorem add_action_any_element_ce :
    (∃ r ∈ [PyVal.str "noise",
        PyVal.frag (mkFragment (.str "x=1") "spec" "spec_ir" [] []
          (.dict []) "T")],
      ∃ g, r = PyVal.frag g ∧ g.semantic_type = "spec") ∧
    dGet (add_action memoryInit 1 "T" "g" "cmd"
        (.list [PyVal.str "noise",
          PyVal.frag (mkFragment (.str "x=1") "spec" "spec_ir" [] []
            (.dict []) "T")])).workflow_progress "spec" = some false ∧
    "spec" ∉ (add_action memoryInit 1 "T" "g" "cmd"
        (.list [PyVal.str "noise",
          PyVal.frag (mkFragment (.str "x=1") "spec" "spec_ir" [] []
            (.dict []) "T")])).semantic_workflow := by
  have hstep : add_action memoryInit 1 "T" "g" "cmd"
      (.list [PyVal.str "noise",
        PyVal.frag (mkFragment (.str "x=1") "spec" "spec_ir" [] []
          (.dict []) "T")]) =
      addActionStore memoryInit 1 "T" "g" "cmd"
        (.list [PyVal.str "noise",
          PyVal.frag (mkFragment (.str "x=1") "spec" "spec_ir" [] []
            (.dict []) "T")]) := by
    rw [add_action]
    intro g tail hgl
    injection hgl with h1
    injection h1 with h2 h3
    exact PyVal.noConfusion h2
  refine ⟨⟨PyVal.frag (mkFragment (.str "x=1") "spec" "spec_ir" [] []
      (.dict []) "T"), by simp, _, rfl, rfl⟩, ?_, ?_⟩
  · rw [hstep]
    rfl
  · rw [hstep]
    simp [addActionStore, memoryInit]

/-- C9: for every input (the enumeration of the distinct input types,
including types absent from the dependency graph), `topological_sort`
terminates (it is a total function) and emits each distinct input type
exactly once; whenever no remaining type has all of its dependencies
outside the remaining set, the loop selects exactly the lexicographically
smallest remaining type (`minOf`, which is a member of and lower bound of
the remaining set). -/
theorem topological_sort_total (types enum : List String)
    (hnd : enum.Nodup) (hmem : ∀ t, t ∈ enum ↔ t ∈ types) :
    (∀ t, List.count t (topological_sort enum) =
        if t ∈ types then 1 else 0) ∧
    (∀ rem : List String, rem ≠ [] → readyList rem = [] →
      topoLoop rem = [minOf rem] ++
        topoLoop (rem.filter (fun t => !([minOf rem].contains t)))) ∧
    (∀ rem : List String, rem ≠ [] →
      minOf rem ∈ rem ∧ ∀ t ∈ rem, minOf rem ≤ t) := by
  refine ⟨?_, ?_, ?_⟩
  · intro t
    have hperm := topoLoop_perm enum hnd
    rw [topological_sort, hperm.count_eq]
    by_cases h : t ∈ types
    · rw [if_pos h]
      exact List.count_eq_one_of_mem hnd ((hmem t).mpr h)
    · rw [if_neg h]
      exact List.count_eq_zero_of_not_mem (fun hc => h ((hmem t).mp hc))
  · intro rem hne hready
    rw [topoLoop, if_neg hne, if_pos hready]
  · intro rem hne
    exact ⟨minOf_mem rem hne, fun t ht => minOf_le rem t ht⟩

/-- Witness for C9 at concrete inputs (an input with a duplicate and a
type absent from the dependency graph). -/
theorem topological_sort_total_witness :
    (["zeta_unknown", "spec"] : List String).Nodup ∧
    (∀ t : String, t ∈ (["zeta_unknown", "spec"] : List String) ↔
      t ∈ (["spec", "zeta_unknown", "spec"] : List String)) ∧
    ((∀ t, List.count t (topological_sort ["zeta_unknown", "spec"]) =
        if t ∈ (["spec", "zeta_unknown", "spec"] : List String) then 1 else 0) ∧
     (∀ rem : List String, rem ≠ [] → readyList rem = [] →
       topoLoop rem = [minOf rem] ++
         topoLoop (rem.filter (fun t => !([minOf rem].contains t)))) ∧
     (∀ rem : List String, rem ≠ [] →
       minOf rem ∈ rem ∧ ∀ t ∈ rem, minOf rem ≤ t)) :=
  ⟨by decide, by intro t; simp; tauto,
    topological_sort_total ["spec", "zeta_unknown", "spec"]
      ["zeta_unknown", "spec"] (by decide) (by intro t; simp; tauto)⟩

lemma chainDep_congr {S T : List String} {b a : String}
    (hST : ∀ x, x ∈ S ↔ x ∈ T) (h : ChainDep S b a) : ChainDep T b a := by
  induction h with
  | direct hd => exact .direct hd
  | step hc hcS _ ih => exact .step hc ((hST _).mp hcS) ih

/-- C5 (amended): for fragments with pairwise distinct semantic types,
the assembler's output places fragment `A` before fragment `B` whenever
`B`'s type depends on `A`'s type through a chain of dependency-graph
edges all of whose types are among the assembled fragments' types. (The
unrestricted transitive closure of the graph does not suffice; see the
counterexample.) -/
theorem sort_fragments_respects_chains (fragments : List Fragment)
    (enum : List String) (A B : Fragment)
    (hnd : (fragments.map Fragment.semantic_type).Nodup)
    (hend : enum.Nodup)
    (hmem : ∀ t, t ∈ enum ↔ t ∈ fragments.map Fragment.semantic_type)
    (hA : A ∈ fragments) (hB : B ∈ fragments)
    (hchain : ChainDep (fragments.map Fragment.semantic_type)
      B.semantic_type A.semantic_type) :
    List.indexOf A.semantic_type
        ((_sort_fragments_by_dependencies enum fragments).map
          Fragment.semantic_type) <
      List.indexOf B.semantic_type
        ((_sort_fragments_by_dependencies enum fragments).map
          Fragment.semantic_type) ∧
    A.semantic_type ∈ ((_sort_fragments_by_dependencies enum fragments).map
      Fragment.semantic_type) ∧
    B.semantic_type ∈ ((_sort_fragments_by_dependencies enum fragments).map
      Fragment.semantic_type) := by
  have hperm : (topological_sort enum).Perm enum := topoLoop_perm enum hend
  have hall : ∀ t ∈ topological_sort enum,
      ∃ f, dGet (fragmentTypeDict fragments) t = some f ∧
        f.semantic_type = t := by
    intro t ht
    have htenum : t ∈ enum := hperm.mem_iff.mp ht
    have htypes : t ∈ fragments.map Fragment.semantic_type := (hmem t).mp htenum
    obtain ⟨f, hf, hft⟩ := List.mem_map.mp htypes
    refine ⟨f, ?_, hft⟩
    rw [← hft]
    exact dGet_foldl_keyInsert_mem Fragment.semantic_type fragments [] f hf hnd
  have hmapeq : ((_sort_fragments_by_dependencies enum fragments).map
      Fragment.semantic_type) = topological_sort enum :=
    map_type_filterMap_dGet _ _ hall
  rw [hmapeq]
  have hAe : A.semantic_type ∈ enum :=
    (hmem _).mpr (List.mem_map_of_mem Fragment.semantic_type hA)
  have hBe : B.semantic_type ∈ enum :=
    (hmem _).mpr (List.mem_map_of_mem Fragment.semantic_type hB)
  have hchain' : ChainDep enum B.semantic_type A.semantic_type :=
    chainDep_congr (fun x => (hmem x).symm) hchain
  refine ⟨topoLoop_chain_lt enum hend _ _ hAe hBe hchain', ?_, ?_⟩
  · exact hperm.mem_iff.mpr hAe
  · exact hperm.mem_iff.mpr hBe

/-- Witness for C5's amended theorem at concrete inputs: assembling
`[ham(deps=[spec]), spec]` with a direct chain inside the set places
spec before ham. -/
theorem sort_fragments_respects_chains_witness :
    (([mkFragment (.str "s") "spec" "spec_ir" [] [] (.dict []) "S",
       mkFragment (.str "h") "hamiltonian" "hamiltonian" ["spec"] []
         (.dict []) "H"].map Fragment.semantic_type).Nodup) ∧
    ((["hamiltonian", "spec"] : List String).Nodup) ∧
    (∀ t : String, t ∈ (["hamiltonian", "spec"] : List String) ↔
      t ∈ [mkFragment (.str "s") "spec" "spec_ir" [] [] (.dict []) "S",
        mkFragment (.str "h") "hamiltonian" "hamiltonian" ["spec"] []
          (.dict []) "H"].map Fragment.semantic_type) ∧
    (mkFragment (.str "s") "spec" "spec_ir" [] [] (.dict []) "S" ∈
      [mkFragment (.str "s") "spec" "spec_ir" [] [] (.dict []) "S",
       mkFragment (.str "h") "hamiltonian" "hamiltonian" ["spec"] []
         (.dict []) "H"]) ∧
    (mkFragment (.str "h") "hamiltonian" "hamiltonian" ["spec"] []
        (.dict []) "H" ∈
      [mkFragment (.str "s") "spec" "spec_ir" [] [] (.dict []) "S",
       mkFragment (.str "h") "hamiltonian" "hamiltonian" ["spec"] []
         (.dict []) "H"]) ∧
    ChainDep ([mkFragment (.str "s") "spec" "spec_ir" [] [] (.dict []) "S",
        mkFragment (.str "h") "hamiltonian" "hamiltonian" ["spec"] []
          (.dict []) "H"].map Fragment.semantic_type)
      (mkFragment (.str "h") "hamiltonian" "hamiltonian" ["spec"] []
        (.dict []) "H").semantic_type
      (mkFragment (.str "s") "spec" "spec_ir" [] [] (.dict [])
        "S").semantic_type ∧
    (List.indexOf (mkFragment (.str "s") "spec" "spec_ir" [] [] (.dict [])
          "S").semantic_type
        ((_sort_fragments_by_dependencies ["hamiltonian", "spec"]
          [mkFragment (.str "s") "spec" "spec_ir" [] [] (.dict []) "S",
           mkFragment (.str "h") "hamiltonian" "hamiltonian" ["spec"] []
             (.dict []) "H"]).map Fragment.semantic_type) <
      List.indexOf (mkFragment (.str "h") "hamiltonian" "hamiltonian"
          ["spec"] [] (.dict []) "H").semantic_type
        ((_sort_fragments_by_dependencies ["hamiltonian", "spec"]
          [mkFragment (.str "s") "spec" "spec_ir" [] [] (.dict []) "S",
           mkFragment (.str "h") "hamiltonian" "hamiltonian" ["spec"] []
             (.dict []) "H"]).map Fragment.semantic_type)) :=
  ⟨by decide, by decide,
   by intro t; simp; tauto,
   List.mem_cons_self _ _,
   List.mem_cons_of_mem _ (List.mem_cons_self _ _),
   ChainDep.direct (by decide),
   (sort_fragments_respects_chains _ ["hamiltonian", "spec"] _ _
     (by decide) (by decide) (by intro t; simp; tauto)
     (List.mem_cons_self _ _)
     (List.mem_cons_of_mem _ (List.mem_cons_self _ _))
     (ChainDep.direct (by decide))).1⟩

/-- Counterexample to C5 as stated: with fragments for `spec` and
`vqe_execution` only (semantic types pairwise distinct), and the set
enumeration listing `vqe_execution` first, the assembled order is
`[vqe_execution, spec]` although `vqe_execution` depends transitively
(via the absent `hamiltonian`) on `spec` — the fragment whose type is
depended on does NOT come first. -/
theorem sort_fragments_transitive_ce :
    (["vqe_execution", "spec"] : List String).Nodup ∧
    ([mkFragment (.str "s") "spec" "spec_ir" [] [] (.dict []) "S",
      mkFragment (.str "v") "vqe_execution" "vqe_result" [] [] (.dict [])
        "V"].map Fragment.semantic_type = ["spec", "vqe_execution"]) ∧
    (∀ t : String, t ∈ (["vqe_execution", "spec"] : List String) ↔
      t ∈ [mkFragment (.str "s") "spec" "spec_ir" [] [] (.dict []) "S",
        mkFragment (.str "v") "vqe_execution" "vqe_result" [] [] (.dict [])
          "V"].map Fragment.semantic_type) ∧
    DependsOn "vqe_execution" "spec" ∧
    ((_sort_fragments_by_dependencies ["vqe_execution", "spec"]
        [mkFragment (.str "s") "spec" "spec_ir" [] [] (.dict []) "S",
         mkFragment (.str "v") "vqe_execution" "vqe_result" [] [] (.dict [])
           "V"]).map Fragment.semantic_type = ["vqe_execution", "spec"]) ∧
    List.indexOf "vqe_execution"
        ((_sort_fragments_by_dependencies ["vqe_execution", "spec"]
          [mkFragment (.str "s") "spec" "spec_ir" [] [] (.dict []) "S",
           mkFragment (.str "v") "vqe_execution" "vqe_result" [] [] (.dict [])
             "V"]).map Fragment.semantic_type) = 0 ∧
    List.indexOf "spec"
        ((_sort_fragments_by_dependencies ["vqe_execution", "spec"]
          [mkFragment (.str "s") "spec" "spec_ir" [] [] (.dict []) "S",
           mkFragment (.str "v") "vqe_execution" "vqe_result" [] [] (.dict [])
             "V"]).map Fragment.semantic_type) = 1 := by
  have h0 : topoLoop [] = [] := by
    rw [topoLoop, if_pos rfl]
  have hr : readyList ["vqe_execution", "spec"] = ["vqe_execution", "spec"] :=
    rfl
  have h2 : topoLoop ["vqe_execution", "spec"] = ["vqe_execution", "spec"] := by
    rw [topoLoop, if_neg (by simp), hr, if_neg (by simp)]
    have hf : (["vqe_execution", "spec"].filter
        (fun t => !((["vqe_execution", "spec"] : List String).contains t))) =
        [] := rfl
    rw [hf, h0]
    rfl
  have hs : _sort_fragments_by_dependencies ["vqe_execution", "spec"]
      [mkFragment (.str "s") "spec" "spec_ir" [] [] (.dict []) "S",
       mkFragment (.str "v") "vqe_execution" "vqe_result" [] [] (.dict [])
         "V"] =
      [mkFragment (.str "v") "vqe_execution" "vqe_result" [] [] (.dict [])
         "V",
       mkFragment (.str "s") "spec" "spec_ir" [] [] (.dict []) "S"] := by
    rw [_sort_fragments_by_dependencies, topological_sort, h2]
    rfl
  refine ⟨by decide, rfl, by intro t; simp; tauto, ?_, ?_, ?_, ?_⟩
  · exact DependsOn.step (c := "hamiltonian") (by decide)
      (DependsOn.direct (by decide))
  · rw [hs]
    rfl
  · rw [hs]
    rfl
  · rw [hs]
    rfl
